import Mathlib

/-!
Verification of the two batch scripts of the repository
`ParseTree-Generator-and-CNF-validity-checker`:

* `fileextracter.py` — the **Collector**: walks a source tree with `os.walk`,
  and copies every file whose lowercased name ends in `".cnf"` or `".cnf.xz"`
  into a flat destination folder, resolving name collisions by inserting
  `_N` (via `os.path.splitext`) before the extension.
* `fileconverter.py` — the **Extractor**: lists a flat source folder with
  `os.listdir`, and for every file whose lowercased name ends in `".cnf.xz"`
  decompresses it with `lzma` and writes the bytes to the destination folder
  under the name `file[:-3]`, catching and logging per-file errors.

Filenames are modelled as `List Char`, file contents as `List Nat` (bytes).
The destination folder of the Collector is an association list of
(name, content) entries ordered by creation; the destination folder of the
Extractor is a map `List Char → Option (List Nat)` because the Extractor
overwrites (`open(path, "wb")`) instead of renaming.
-/

set_option autoImplicit false

namespace CnfTools

/-- A filename (one path component, as produced by `os.walk`/`os.listdir`). -/
abbrev FName := List Char

/-- File contents, a sequence of bytes. -/
abbrev Content := List Nat

/-- A file of a folder: its name together with its contents. -/
abbrev Entry := FName × Content

/-! ### Python string primitives used by both scripts -/

/-- Python's `str.lower`, restricted to the ASCII filenames the scripts deal
with: each character is lowercased individually (`Char.toLower` maps `A`–`Z`
to `a`–`z` and leaves everything else unchanged, exactly as Python does on
ASCII input). -/
def pyLower (s : FName) : FName := s.map Char.toLower

/-- Python's `s.endswith(suffix)`. -/
def pyEndsWith (s suffix : FName) : Bool := decide (suffix <:+ s)

/-- The decimal digits of `n`, most significant first, produced with explicit
fuel (`n` itself is always enough fuel, see `pyStr`). Mirrors how Python's
`str` renders a nonnegative integer. -/
def pyStrAux : Nat → Nat → List Char
  | 0, _ => []
  | fuel + 1, n =>
      if n = 0 then [] else pyStrAux fuel (n / 10) ++ [Nat.digitChar (n % 10)]

/-- Python's `str(n)` (equivalently, the f-string rendering `f"{n}"`) for a
natural number `n`: decimal, no leading zeros, `"0"` for zero. -/
def pyStr (n : Nat) : List Char :=
  if n = 0 then ['0'] else pyStrAux n n

/-- Locate the last `'.'` of a filename: returns `some (b, e)` where the
name is `b ++ e` and `e` starts at the last dot, or `none` when the name
has no dot. -/
def splitAtLastDot : List Char → Option (List Char × List Char)
  | [] => none
  | c :: cs =>
      match splitAtLastDot cs with
      | some (b, e) => some (c :: b, e)
      | none => if c = '.' then some ([], c :: cs) else none

/-- `os.path.splitext` on a bare filename (no directory separators occur in
the names handed to it by the scripts): split at the last dot, unless every
character before that dot is itself a dot (leading dots are part of the
base, so `".cnf"` has no extension). -/
def splitext (p : FName) : FName × FName :=
  match splitAtLastDot p with
  | some (b, e) => if b.all (fun c => c = '.') then (p, []) else (b, e)
  | none => (p, [])

/-! ### The Collector (`fileextracter.py`) -/

/-- The suffix test of the Collector:
`file.lower().endswith(".cnf") or file.lower().endswith(".cnf.xz")`. -/
def matchesTarget (f : FName) : Bool :=
  pyEndsWith (pyLower f) ".cnf".toList || pyEndsWith (pyLower f) ".cnf.xz".toList

/-- The names of the files currently present in the destination folder. -/
def destNames (dest : List Entry) : List FName := dest.map Prod.fst

/-- The candidate name `f"{base}_{count}{ext}"` built by the collision loop. -/
def candName (base ext : FName) (count : Nat) : FName :=
  base ++ '_' :: (pyStr count ++ ext)

/-- The collision `while` loop of the Collector: starting from candidate
number `count`, return the first candidate name not present among `names`.
The loop of the script terminates because the destination folder is finite;
here the same fact appears as a fuel argument, and `fuel = names.length + 1`
is proved sufficient (`resolveFrom_notMem`). -/
def resolveFrom (names : List FName) (base ext : FName) : Nat → Nat → FName
  | 0, count => candName base ext count
  | fuel + 1, count =>
      if candName base ext count ∈ names then resolveFrom names base ext fuel (count + 1)
      else candName base ext count

/-- The destination name chosen for source file `f`: `f` itself if no file of
that name exists, otherwise the first free `f"{base}_{count}{ext}"` with
`base, ext = os.path.splitext(f)` and `count = 1, 2, 3, …`. -/
def resolveName (dest : List Entry) (f : FName) : FName :=
  if f ∈ destNames dest then
    resolveFrom (destNames dest) (splitext f).1 (splitext f).2 ((destNames dest).length + 1) 1
  else f

/-- One iteration of the Collector's inner loop on file `e`: if the name
matches a target suffix, `shutil.copy2` creates a new file with the resolved
name and the source's contents; otherwise nothing happens. -/
def collectorStep (dest : List Entry) (e : Entry) : List Entry :=
  if matchesTarget e.1 then dest ++ [(resolveName dest e.1, e.2)] else dest

/-- A full Collector run over the source files `src` (all files of the tree
in `os.walk` order) starting from destination contents `dest`. -/
def collectorRun (src : List Entry) (dest : List Entry) : List Entry :=
  src.foldl collectorStep dest

/-- The final line printed by the Collector. -/
def collectorDoneMsg : List Char := "All CNF files collected successfully!".toList

/-- The Collector with copy failures made explicit: `fails s d = true` means
`shutil.copy2` raises while copying source name `s` to destination name `d`.
The script has no `try`/`except`, so the exception propagates: the run
aborts (`Except.error`, carrying the destination contents at that moment),
the remaining files are not visited, and the summary line is not printed —
the log of a successful run is exactly `[collectorDoneMsg]`. -/
def collectorRunE (fails : FName → FName → Bool) :
    List Entry → List Entry → Except (List Entry) (List Entry × List (List Char))
  | [], dest => .ok (dest, [collectorDoneMsg])
  | e :: rest, dest =>
      if matchesTarget e.1 then
        let name := resolveName dest e.1
        if fails e.1 name then .error dest
        else collectorRunE fails rest (dest ++ [(name, e.2)])
      else collectorRunE fails rest dest

/-! ### The Extractor (`fileconverter.py`) -/

/-- The suffix test of the Extractor: `file.lower().endswith(".cnf.xz")`. -/
def xzTarget (f : FName) : Bool := pyEndsWith (pyLower f) ".cnf.xz".toList

/-- The output name `file[:-3]`: the source name with its last three
characters (the `.xz`/`.XZ` suffix) removed, casing untouched. -/
def stripXz (f : FName) : FName := f.take (f.length - 3)

/-- The destination folder of the Extractor, as a map from filename to
contents (`none` = no such file). A map rather than an append-only list
because `open(cnf_path, "wb")` truncates: an existing file is overwritten. -/
def DestMap := FName → Option Content

/-- Writing a file: `open(name, "wb"); write(v)` replaces whatever was
previously stored under `name`. -/
def store (d : DestMap) (name : FName) (v : Content) : DestMap :=
  fun m => if m = name then some v else d m

/-- The success line `f"Extracted: {file} → {cnf_filename}"`. -/
def extractedMsg (src dst : FName) : List Char :=
  "Extracted: ".toList ++ src ++ " → ".toList ++ dst

/-- The failure line `f"Error extracting {file}: {e}"`. -/
def errorMsg (src : FName) (e : List Char) : List Char :=
  "Error extracting ".toList ++ src ++ ": ".toList ++ e

/-- The final line printed by the Extractor. -/
def extractorDoneMsg : List Char := "All .cnf.xz files extracted successfully!".toList

/-- The mutable state of an Extractor run: the destination folder and the
console output so far. -/
structure ExtState where
  dest : DestMap
  log : List (List Char)

/-- An oracle describing what `lzma` decompression (together with reading
the source file and writing the output) does on a given compressed byte
sequence: either the decompressed bytes or the message of the exception
raised. It is a function, so a fixed filesystem behaves the same way every
time a file is processed. -/
def DecOracle := Content → Except (List Char) Content

/-- One iteration of the Extractor's loop on file `e`: non-matching names
are skipped; on success the decompressed bytes are stored under the stripped
name (overwriting) and a success line is printed; the `try`/`except` turns a
failure into an error line, after which the loop continues. -/
def extractorStep (dec : DecOracle) (st : ExtState) (e : Entry) : ExtState :=
  if xzTarget e.1 then
    match dec e.2 with
    | .ok v => ⟨store st.dest (stripXz e.1) v, st.log ++ [extractedMsg e.1 (stripXz e.1)]⟩
    | .error msg => ⟨st.dest, st.log ++ [errorMsg e.1 msg]⟩
  else st

/-- A full Extractor run over the folder listing `src` starting from
destination contents `d0`; the completion line is printed unconditionally
after the loop. -/
def extractorRun (dec : DecOracle) (src : List Entry) (d0 : DestMap) : ExtState :=
  let st := src.foldl (extractorStep dec) ⟨d0, []⟩
  ⟨st.dest, st.log ++ [extractorDoneMsg]⟩

/-! ### Helper functions used only in the statements and proofs -/

/-- Reading a decimal digit string back into a number; inverse to `pyStr`
(`decodeDec_pyStr`), which makes `pyStr` injective. -/
def decodeDec (l : List Char) : Nat :=
  l.foldl (fun a c => 10 * a + (c.toNat - 48)) 0

/-- One step of the fold computing `lastVal`: a matching file that strips to
`name` and decompresses successfully overwrites the accumulator. -/
def lastValStep (dec : DecOracle) (name : FName) (acc : Option Content) (e : Entry) :
    Option Content :=
  if xzTarget e.1 = true ∧ stripXz e.1 = name then
    match dec e.2 with
    | .ok v => some v
    | .error _ => acc
  else acc

/-- The value of the last successful write of an Extractor run to `name`,
or `none` when the run never successfully writes `name`. -/
def lastVal (dec : DecOracle) (src : List Entry) (name : FName) : Option Content :=
  src.foldl (lastValStep dec name) none

/-- A concrete decompression oracle for witnesses: the byte sequence `[0]`
is a corrupt archive (raising an `LZMAError` whose message is `corrupt`),
every other archive decompresses to the bytes it stores. -/
def decSample : DecOracle :=
  fun c => if c = [0] then Except.error "corrupt".toList else Except.ok c

/-- A concrete folder listing for witnesses: two valid archives around a
corrupt one. -/
def srcSample : List Entry :=
  [("good.cnf.xz".toList, [1]), ("bad.cnf.xz".toList, [0]), ("fine.cnf.xz".toList, [2])]

/-- An empty destination folder for the Extractor. -/
def emptyDest : DestMap := fun _ => none

end CnfTools

namespace CnfTools

/-! ## Properties

### Decimal rendering: `pyStr` is injective -/

theorem decodeDec_append (l : List Char) (c : Char) :
    decodeDec (l ++ [c]) = 10 * decodeDec l + (c.toNat - 48) := by
  simp [decodeDec, List.foldl_append]

theorem digitChar_val (d : Nat) (h : d < 10) : (Nat.digitChar d).toNat - 48 = d := by
  interval_cases d <;> decide

theorem decodeDec_pyStrAux (fuel : Nat) : ∀ n : Nat, n ≤ fuel →
    decodeDec (pyStrAux fuel n) = n := by
  induction fuel with
  | zero =>
      intro n hn
      have hz : n = 0 := by omega
      subst hz; rfl
  | succ fuel ih =>
      intro n hn
      by_cases h0 : n = 0
      · subst h0; simp [pyStrAux, decodeDec]
      · have hdiv : n / 10 ≤ fuel := by
          have : n / 10 < n := Nat.div_lt_self (Nat.pos_of_ne_zero h0) (by norm_num)
          omega
        rw [pyStrAux, if_neg h0, decodeDec_append, ih _ hdiv,
          digitChar_val _ (Nat.mod_lt _ (by norm_num))]
        omega

theorem decodeDec_pyStr (n : Nat) : decodeDec (pyStr n) = n := by
  by_cases h : n = 0
  · subst h; rfl
  · rw [pyStr, if_neg h]; exact decodeDec_pyStrAux n n le_rfl

theorem pyStr_injective : Function.Injective pyStr := by
  intro m n h
  rw [← decodeDec_pyStr m, ← decodeDec_pyStr n, h]

theorem candName_injective (base ext : FName) : Function.Injective (candName base ext) := by
  intro m n h
  unfold candName at h
  have h1 := List.append_cancel_left h
  injection h1 with _ h2
  exact pyStr_injective (List.append_cancel_right h2)

/-! ### The collision loop of the Collector -/

theorem exists_candName_free (names : List FName) (base ext : FName) (count : Nat) :
    ∃ k < names.length + 1, candName base ext (count + k) ∉ names := by
  by_contra hcon
  push_neg at hcon
  have hsub : (List.range (names.length + 1)).map (fun k => candName base ext (count + k))
      ⊆ names := by
    intro x hx
    simp only [List.mem_map, List.mem_range] at hx
    obtain ⟨k, hk, rfl⟩ := hx
    exact hcon k hk
  have hinj : Function.Injective (fun k => candName base ext (count + k)) := by
    intro a b hab
    have := candName_injective base ext hab
    omega
  have hnd := (List.nodup_range (names.length + 1)).map hinj
  have hle := (hnd.subperm hsub).length_le
  simp at hle

theorem resolveFrom_spec (names : List FName) (base ext : FName) (fuel : Nat) :
    ∀ count : Nat, (∃ k < fuel, candName base ext (count + k) ∉ names) →
    ∃ j, resolveFrom names base ext fuel count = candName base ext (count + j)
      ∧ candName base ext (count + j) ∉ names
      ∧ ∀ i < j, candName base ext (count + i) ∈ names := by
  induction fuel with
  | zero =>
      intro count h
      obtain ⟨k, hk, _⟩ := h
      omega
  | succ fuel ih =>
      intro count h
      by_cases hc : candName base ext count ∈ names
      · obtain ⟨k, hk, hfree⟩ := h
        have hk0 : k ≠ 0 := by
          rintro rfl
          rw [Nat.add_zero] at hfree
          exact hfree hc
        have h' : ∃ k' < fuel, candName base ext (count + 1 + k') ∉ names := by
          refine ⟨k - 1, by omega, ?_⟩
          rw [show count + 1 + (k - 1) = count + k from by omega]
          exact hfree
        obtain ⟨j, hj1, hj2, hj3⟩ := ih (count + 1) h'
        refine ⟨j + 1, ?_, ?_, ?_⟩
        · rw [resolveFrom, if_pos hc, show count + (j + 1) = count + 1 + j from by omega]
          exact hj1
        · rw [show count + (j + 1) = count + 1 + j from by omega]
          exact hj2
        · intro i hi
          cases i with
          | zero => simpa using hc
          | succ i =>
              have := hj3 i (by omega)
              rw [show count + (i + 1) = count + 1 + i from by omega]
              exact this
      · refine ⟨0, ?_, ?_, ?_⟩
        · simp [resolveFrom, hc]
        · rw [Nat.add_zero]; exact hc
        · intro i hi; omega

theorem resolveName_spec (dest : List Entry) (f : FName) (h : f ∈ destNames dest) :
    ∃ N, 1 ≤ N
      ∧ resolveName dest f = candName (splitext f).1 (splitext f).2 N
      ∧ candName (splitext f).1 (splitext f).2 N ∉ destNames dest
      ∧ ∀ m, 1 ≤ m → m < N → candName (splitext f).1 (splitext f).2 m ∈ destNames dest := by
  obtain ⟨k, hk, hfree⟩ :=
    exists_candName_free (destNames dest) (splitext f).1 (splitext f).2 1
  obtain ⟨j, hj1, hj2, hj3⟩ :=
    resolveFrom_spec (destNames dest) (splitext f).1 (splitext f).2
      ((destNames dest).length + 1) 1 ⟨k, hk, hfree⟩
  refine ⟨1 + j, by omega, ?_, hj2, ?_⟩
  · rw [resolveName, if_pos h]
    exact hj1
  · intro m h1 hm
    have := hj3 (m - 1) (by omega)
    rw [show 1 + (m - 1) = m from by omega] at this
    exact this

theorem resolveName_notMem (dest : List Entry) (f : FName) :
    resolveName dest f ∉ destNames dest := by
  by_cases h : f ∈ destNames dest
  · obtain ⟨N, _, heq, hfree, _⟩ := resolveName_spec dest f h
    rw [heq]
    exact hfree
  · rw [resolveName, if_neg h]
    exact h

/-! ### Collector runs -/

theorem destNames_append (dest : List Entry) (e : Entry) :
    destNames (dest ++ [e]) = destNames dest ++ [e.1] := by
  simp [destNames]

theorem collectorRun_cons (e : Entry) (src dest : List Entry) :
    collectorRun (e :: src) dest = collectorRun src (collectorStep dest e) := rfl

theorem collectorStep_pre (dest : List Entry) (e : Entry) : dest <+: collectorStep dest e := by
  unfold collectorStep
  split
  · exact ⟨_, rfl⟩
  · exact List.prefix_refl _

theorem collectorStep_length (dest : List Entry) (e : Entry) :
    (collectorStep dest e).length
      = dest.length + (if matchesTarget e.1 then 1 else 0) := by
  unfold collectorStep
  split <;> simp_all

theorem collectorStep_nodup (dest : List Entry) (e : Entry)
    (h : (destNames dest).Nodup) : (destNames (collectorStep dest e)).Nodup := by
  unfold collectorStep
  split
  · rw [destNames_append, List.nodup_append]
    refine ⟨h, List.nodup_singleton _, ?_⟩
    intro x hx hx2
    simp only [List.mem_singleton] at hx2
    subst hx2
    exact resolveName_notMem dest e.1 hx
  · exact h

theorem collectorRun_props (src : List Entry) : ∀ dest0 : List Entry,
    (destNames dest0).Nodup →
    dest0 <+: collectorRun src dest0
      ∧ (destNames (collectorRun src dest0)).Nodup
      ∧ (collectorRun src dest0).length
          = dest0.length + src.countP (fun e => matchesTarget e.1) := by
  induction src with
  | nil =>
      intro dest0 h
      exact ⟨List.prefix_refl _, h, by simp [collectorRun]⟩
  | cons e src ih =>
      intro dest0 h
      obtain ⟨h1, h2, h3⟩ := ih (collectorStep dest0 e) (collectorStep_nodup dest0 e h)
      refine ⟨(collectorStep_pre dest0 e).trans h1, h2, ?_⟩
      rw [collectorRun_cons, h3, collectorStep_length, List.countP_cons]
      by_cases hm : matchesTarget e.1
      · simp [hm]
        omega
      · simp [hm]

/-! ### Claim C1 -/

/-- **C1** — Collector no-overwrite invariant: for every run over any source
tree (its files in walk order) and any initial destination-folder contents
(distinct names, as in a real folder), the pre-existing files survive the
run unchanged as a prefix of the final folder, the final folder still has
pairwise-distinct names (so no copy of this run ever landed on a name that
already existed, whether pre-existing or created earlier in the same run),
and the folder grows by exactly one file per source file whose name
case-insensitively ends in `.cnf` or `.cnf.xz`. -/
theorem claim_C1_collector_no_overwrite (src dest0 : List Entry)
    (h : (destNames dest0).Nodup) :
    dest0 <+: collectorRun src dest0
      ∧ (destNames (collectorRun src dest0)).Nodup
      ∧ (collectorRun src dest0).length
          = dest0.length + src.countP (fun e => matchesTarget e.1) :=
  collectorRun_props src dest0 h

/-- Witness for C1: a concrete run over a tree holding `a.cnf` (matching)
and `notes.txt` (not matching), into a folder already holding `a.cnf`. -/
theorem claim_C1_collector_no_overwrite_witness :
    (destNames [("a.cnf".toList, [0])]).Nodup
      ∧ ([("a.cnf".toList, [0])] <+:
            collectorRun [("a.cnf".toList, [1]), ("notes.txt".toList, [2])]
              [("a.cnf".toList, [0])]
          ∧ (destNames (collectorRun [("a.cnf".toList, [1]), ("notes.txt".toList, [2])]
              [("a.cnf".toList, [0])])).Nodup
          ∧ (collectorRun [("a.cnf".toList, [1]), ("notes.txt".toList, [2])]
              [("a.cnf".toList, [0])]).length
              = [("a.cnf".toList, [0])].length
                  + List.countP (fun e => matchesTarget e.1)
                      [("a.cnf".toList, [1]), ("notes.txt".toList, [2])]) :=
  ⟨by decide, claim_C1_collector_no_overwrite _ _ (by decide)⟩

/-! ### Claim C2 -/

/-- **C2** — Collector collision resolution: whenever the name of a matching
source file already exists in the destination, the chosen destination name
is `f"{base}_{N}{ext}"` with `base, ext = os.path.splitext(file)`, where `N`
is the smallest positive integer whose candidate name is free (every
smaller positive integer's candidate already exists — the loop re-checks
existence after each candidate); and concretely, collecting `a.cnf`,
`sub/a.cnf`, `sub2/a.cnf` into an empty folder yields exactly `a.cnf`,
`a_1.cnf`, `a_2.cnf`. -/
theorem claim_C2_collision_resolution :
    (∀ (dest : List Entry) (f : FName), f ∈ destNames dest →
        ∃ N, 1 ≤ N
          ∧ resolveName dest f = candName (splitext f).1 (splitext f).2 N
          ∧ candName (splitext f).1 (splitext f).2 N ∉ destNames dest
          ∧ ∀ m, 1 ≤ m → m < N →
              candName (splitext f).1 (splitext f).2 m ∈ destNames dest)
      ∧ collectorRun
            [("a.cnf".toList, [1]), ("a.cnf".toList, [2]),
              ("a.cnf".toList, [3])] []
          = [("a.cnf".toList, [1]), ("a_1.cnf".toList, [2]),
              ("a_2.cnf".toList, [3])] :=
  ⟨resolveName_spec, by decide⟩

/-- Witness for C2: the collision branch applied to a folder already
holding `a.cnf`. -/
theorem claim_C2_collision_resolution_witness :
    "a.cnf".toList ∈ destNames [("a.cnf".toList, [0])]
      ∧ ∃ N, 1 ≤ N
          ∧ resolveName [("a.cnf".toList, [0])] "a.cnf".toList
              = candName (splitext "a.cnf".toList).1
                  (splitext "a.cnf".toList).2 N
          ∧ candName (splitext "a.cnf".toList).1
                (splitext "a.cnf".toList).2 N
              ∉ destNames [("a.cnf".toList, [0])]
          ∧ ∀ m, 1 ≤ m → m < N →
              candName (splitext "a.cnf".toList).1
                  (splitext "a.cnf".toList).2 m
                ∈ destNames [("a.cnf".toList, [0])] :=
  ⟨by decide, claim_C2_collision_resolution.1 _ _ (by decide)⟩

/-! ### Extractor runs: destination lookups -/

theorem foldl_lastValStep (dec : DecOracle) (name : FName) (src : List Entry) :
    ∀ acc : Option Content,
      src.foldl (lastValStep dec name) acc
        = match src.foldl (lastValStep dec name) none with
          | some v => some v
          | none => acc := by
  induction src with
  | nil => intro acc; rfl
  | cons e src ih =>
      intro acc
      simp only [List.foldl_cons]
      rw [ih (lastValStep dec name acc e), ih (lastValStep dec name none e)]
      cases hL : src.foldl (lastValStep dec name) none with
      | some v => rfl
      | none =>
          show lastValStep dec name acc e
              = match lastValStep dec name none e with
                | some v => some v
                | none => acc
          by_cases hc : xzTarget e.1 = true ∧ stripXz e.1 = name
          · rw [lastValStep, if_pos hc, lastValStep, if_pos hc]
            cases hdec : dec e.2 <;> rfl
          · rw [lastValStep, if_neg hc, lastValStep, if_neg hc]

theorem foldl_extractorStep_dest (dec : DecOracle) (src : List Entry) :
    ∀ (st : ExtState) (name : FName),
      (src.foldl (extractorStep dec) st).dest name
        = match lastVal dec src name with
          | some v => some v
          | none => st.dest name := by
  induction src with
  | nil => intro st name; rfl
  | cons e src ih =>
      intro st name
      simp only [List.foldl_cons]
      rw [ih (extractorStep dec st e) name]
      have hcons : lastVal dec (e :: src) name
          = match lastVal dec src name with
            | some v => some v
            | none => lastValStep dec name none e :=
        foldl_lastValStep dec name src (lastValStep dec name none e)
      rw [hcons]
      cases hL : lastVal dec src name with
      | some v => rfl
      | none =>
          show (extractorStep dec st e).dest name
              = match lastValStep dec name none e with
                | some v => some v
                | none => st.dest name
          by_cases hx : xzTarget e.1 = true
          · cases hdec : dec e.2 with
            | ok v =>
                by_cases hn : stripXz e.1 = name
                · simp [extractorStep, lastValStep, store, hx, hdec, hn]
                · simp only [extractorStep, lastValStep, store, hx, hdec, if_true,
                    hn, false_and, and_false, if_false]
                  rw [if_neg (fun hh => hn hh.symm)]
            | error msg => simp [extractorStep, lastValStep, hx, hdec]
          · simp [extractorStep, lastValStep, hx]

theorem extractorRun_lookup (dec : DecOracle) (src : List Entry) (d0 : DestMap)
    (name : FName) :
    (extractorRun dec src d0).dest name
      = match lastVal dec src name with
        | some v => some v
        | none => d0 name :=
  foldl_extractorStep_dest dec src ⟨d0, []⟩ name

theorem foldl_extractorStep_preserve (dec : DecOracle) (src : List Entry) :
    ∀ (st : ExtState) (name : FName) (v : Content),
      st.dest name = some v →
      (∀ g ∈ src, xzTarget g.1 = true → stripXz g.1 = name → dec g.2 = Except.ok v) →
      (src.foldl (extractorStep dec) st).dest name = some v := by
  induction src with
  | nil => intro st name v h _; exact h
  | cons e src ih =>
      intro st name v h hall
      simp only [List.foldl_cons]
      refine ih _ name v ?_ (fun g hg => hall g (List.mem_cons_of_mem e hg))
      by_cases hx : xzTarget e.1 = true
      · cases hdec : dec e.2 with
        | ok w =>
            by_cases hn : stripXz e.1 = name
            · have hv := hall e (List.mem_cons_self e src) hx hn
              rw [hdec] at hv
              injection hv with hw
              simp [extractorStep, store, hx, hdec, hn, hw]
            · simp only [extractorStep, store, hx, hdec, if_true]
              rw [if_neg (fun hh => hn hh.symm)]
              exact h
        | error msg => simpa [extractorStep, hx, hdec] using h
      · simpa [extractorStep, hx] using h

theorem foldl_extractorStep_write (dec : DecOracle) (src : List Entry) :
    ∀ (st : ExtState) (f : FName) (c v : Content),
      (f, c) ∈ src → xzTarget f = true → dec c = Except.ok v →
      (∀ g ∈ src, xzTarget g.1 = true → stripXz g.1 = stripXz f → g = (f, c)) →
      (src.foldl (extractorStep dec) st).dest (stripXz f) = some v := by
  induction src with
  | nil => intro st f c v hmem _ _ _; cases hmem
  | cons e src ih =>
      intro st f c v hmem hx hdec huniq
      rcases List.mem_cons.mp hmem with he | hmem'
      · simp only [List.foldl_cons]
        refine foldl_extractorStep_preserve dec src _ _ _ ?_ ?_
        · rw [← he]
          simp [extractorStep, store, hx, hdec]
        · intro g hg hgx hgs
          have hgeq := huniq g (List.mem_cons_of_mem _ hg) hgx hgs
          rw [hgeq]
          exact hdec
      · simp only [List.foldl_cons]
        exact ih _ f c v hmem' hx hdec (fun g hg => huniq g (List.mem_cons_of_mem _ hg))

/-! ### Extractor runs: the log -/

theorem foldl_extractorStep_log_mono (dec : DecOracle) (src : List Entry) :
    ∀ (st : ExtState) (m : List Char),
      m ∈ st.log → m ∈ (src.foldl (extractorStep dec) st).log := by
  induction src with
  | nil => intro st m h; exact h
  | cons e src ih =>
      intro st m h
      simp only [List.foldl_cons]
      refine ih _ m ?_
      by_cases hx : xzTarget e.1 = true
      · cases hdec : dec e.2 with
        | ok v => simp [extractorStep, hx, hdec, List.mem_append]; exact Or.inl h
        | error msg => simp [extractorStep, hx, hdec, List.mem_append]; exact Or.inl h
      · simpa [extractorStep, hx] using h

theorem foldl_extractorStep_err (dec : DecOracle) (src : List Entry) :
    ∀ (st : ExtState) (f : FName) (c : Content) (msg : List Char),
      (f, c) ∈ src → xzTarget f = true → dec c = Except.error msg →
      errorMsg f msg ∈ (src.foldl (extractorStep dec) st).log := by
  induction src with
  | nil => intro st f c msg hmem _ _; cases hmem
  | cons e src ih =>
      intro st f c msg hmem hx hdec
      rcases List.mem_cons.mp hmem with he | hmem'
      · simp only [List.foldl_cons]
        refine foldl_extractorStep_log_mono dec src _ _ ?_
        rw [← he]
        simp [extractorStep, hx, hdec]
      · simp only [List.foldl_cons]
        exact ih _ f c msg hmem' hx hdec

/-! ### Claim C3 -/

/-- **C3** — Extractor output correctness: for every file of the source
folder whose name case-insensitively ends in `.cnf.xz` and whose contents
decompress to `v`, provided no other listed file strips to the same output
name, the run leaves the destination file named `file[:-3]` holding exactly
the decompressed bytes `v`. -/
theorem claim_C3_extractor_output (dec : DecOracle) (src : List Entry) (d0 : DestMap)
    (f : FName) (c v : Content)
    (hmem : (f, c) ∈ src) (hxz : xzTarget f = true) (hdec : dec c = Except.ok v)
    (huniq : ∀ g ∈ src, xzTarget g.1 = true → stripXz g.1 = stripXz f → g = (f, c)) :
    (extractorRun dec src d0).dest (stripXz f) = some v :=
  foldl_extractorStep_write dec src ⟨d0, []⟩ f c v hmem hxz hdec huniq

/-- Witness for C3: the spec's scenario — a source folder holding only
`x.cnf.xz` whose payload decompresses to `b"hello"` (bytes
`[104, 101, 108, 108, 111]`) yields `x.cnf` holding exactly those bytes. -/
theorem claim_C3_extractor_output_witness :
    ("x.cnf.xz".toList, ([104, 101, 108, 108, 111] : Content))
        ∈ [("x.cnf.xz".toList, ([104, 101, 108, 108, 111] : Content))]
      ∧ xzTarget "x.cnf.xz".toList = true
      ∧ stripXz "x.cnf.xz".toList = "x.cnf".toList
      ∧ (extractorRun (fun c => Except.ok c)
            [("x.cnf.xz".toList, ([104, 101, 108, 108, 111] : Content))]
            emptyDest).dest (stripXz "x.cnf.xz".toList)
          = some [104, 101, 108, 108, 111] :=
  ⟨by decide, by decide, by decide,
    claim_C3_extractor_output (fun c => Except.ok c) _ emptyDest
      "x.cnf.xz".toList [104, 101, 108, 108, 111] [104, 101, 108, 108, 111]
      (by decide) (by decide) rfl (by decide)⟩

/-! ### Claim C4 -/

/-- **C4** — Extractor failure policy: on every batch, the run reaches the
end and the completion message is the last line logged, no matter how the
oracle fails; a file whose decompression (or read/write) raises is reported
by a line carrying its name and the underlying error message; and every
valid file (one that decompresses, with no other file stripping to its
output name) still produces its output. -/
theorem claim_C4_extractor_failures (dec : DecOracle) (src : List Entry) (d0 : DestMap) :
    ((extractorRun dec src d0).log).getLast? = some extractorDoneMsg
      ∧ (∀ (f : FName) (c : Content) (msg : List Char),
            (f, c) ∈ src → xzTarget f = true → dec c = Except.error msg →
            errorMsg f msg ∈ (extractorRun dec src d0).log)
      ∧ (∀ (f : FName) (c v : Content),
            (f, c) ∈ src → xzTarget f = true → dec c = Except.ok v →
            (∀ g ∈ src, xzTarget g.1 = true → stripXz g.1 = stripXz f → g = (f, c)) →
            (extractorRun dec src d0).dest (stripXz f) = some v) := by
  refine ⟨?_, ?_, ?_⟩
  · show ((src.foldl (extractorStep dec) ⟨d0, []⟩).log ++ [extractorDoneMsg]).getLast?
        = some extractorDoneMsg
    exact List.getLast?_concat _
  · intro f c msg hmem hx hdec
    show errorMsg f msg ∈ (src.foldl (extractorStep dec) ⟨d0, []⟩).log ++ [extractorDoneMsg]
    exact List.mem_append_left _
      (foldl_extractorStep_err dec src ⟨d0, []⟩ f c msg hmem hx hdec)
  · intro f c v hmem hx hdec huniq
    exact foldl_extractorStep_write dec src ⟨d0, []⟩ f c v hmem hx hdec huniq

/-- Witness for C4: with a corrupt `bad.cnf.xz` between the valid
`good.cnf.xz` and `fine.cnf.xz`, the run still ends in the completion
message, logs an error line naming the corrupt file, and produces the
output of a valid file. -/
theorem claim_C4_extractor_failures_witness :
    ((extractorRun decSample srcSample emptyDest).log).getLast? = some extractorDoneMsg
      ∧ errorMsg "bad.cnf.xz".toList "corrupt".toList
          ∈ (extractorRun decSample srcSample emptyDest).log
      ∧ (extractorRun decSample srcSample emptyDest).dest
            (stripXz "good.cnf.xz".toList) = some [1] :=
  ⟨(claim_C4_extractor_failures decSample srcSample emptyDest).1,
    (claim_C4_extractor_failures decSample srcSample emptyDest).2.1
      "bad.cnf.xz".toList [0] "corrupt".toList (by decide) (by decide) rfl,
    (claim_C4_extractor_failures decSample srcSample emptyDest).2.2
      "good.cnf.xz".toList [1] [1] (by decide) (by decide) rfl (by decide)⟩

/-! ### Claim C5 -/

/-- **C5** — Extractor idempotence: running the Extractor a second time on
the same source folder, with the destination contents left by the first
run, reproduces exactly the destination contents of the first run (each
output is rewritten with the same decompressed bytes). -/
theorem claim_C5_extractor_idempotent (dec : DecOracle) (src : List Entry) (d0 : DestMap) :
    (extractorRun dec src ((extractorRun dec src d0).dest)).dest
      = (extractorRun dec src d0).dest := by
  funext name
  have L1 := extractorRun_lookup dec src d0 name
  have L2 := extractorRun_lookup dec src ((extractorRun dec src d0).dest) name
  cases hL : lastVal dec src name with
  | some v =>
      simp only [hL] at L1 L2
      exact L2.trans L1.symm
  | none =>
      simp only [hL] at L2
      exact L2

/-! ### Claim C8 -/

/-- **C8** — the Extractor overwrites silently: processing a matching file
whose stripped output name is already present in the destination performs
no collision check — the existing file's contents are replaced by the newly
decompressed bytes, and no other destination name (in particular no renamed
variant) is touched. -/
theorem claim_C8_extractor_overwrites (dec : DecOracle) (st : ExtState)
    (f : FName) (c v old : Content)
    (hxz : xzTarget f = true) (hdec : dec c = Except.ok v)
    (_hold : st.dest (stripXz f) = some old) :
    (extractorStep dec st (f, c)).dest (stripXz f) = some v
      ∧ ∀ m : FName, m ≠ stripXz f → (extractorStep dec st (f, c)).dest m = st.dest m := by
  constructor
  · simp [extractorStep, store, hxz, hdec]
  · intro m hm
    simp only [extractorStep, store, hxz, hdec, if_true]
    rw [if_neg hm]

/-- Witness for C8: `x.cnf` already holds `[9]`; extracting `x.cnf.xz`
(payload `[5]`) replaces it with `[5]` and leaves `other.cnf` alone. -/
theorem claim_C8_extractor_overwrites_witness :
    (extractorStep (fun c => Except.ok c)
          ⟨fun n => if n = "x.cnf".toList then some [9] else none, []⟩
          ("x.cnf.xz".toList, [5])).dest (stripXz "x.cnf.xz".toList) = some [5]
      ∧ (extractorStep (fun c => Except.ok c)
            ⟨fun n => if n = "x.cnf".toList then some [9] else none, []⟩
            ("x.cnf.xz".toList, [5])).dest "other.cnf".toList
          = (fun n => if n = "x.cnf".toList then some [9] else none) "other.cnf".toList :=
  ⟨(claim_C8_extractor_overwrites (fun c => Except.ok c)
      ⟨fun n => if n = "x.cnf".toList then some [9] else none, []⟩
      "x.cnf.xz".toList [5] [5] [9] (by decide) rfl (by decide)).1,
    (claim_C8_extractor_overwrites (fun c => Except.ok c)
        ⟨fun n => if n = "x.cnf".toList then some [9] else none, []⟩
        "x.cnf.xz".toList [5] [5] [9] (by decide) rfl (by decide)).2
      "other.cnf".toList (by decide)⟩

/-! ### The Collector under copy failures -/

theorem collectorRunE_append (fails : FName → FName → Bool) (pre : List Entry) :
    ∀ (rest : List Entry) (dest : List Entry),
      collectorRunE fails (pre ++ rest) dest
        = match collectorRunE fails pre dest with
          | .error d => .error d
          | .ok (d, _) => collectorRunE fails rest d := by
  induction pre with
  | nil => intro rest dest; rfl
  | cons e pre ih =>
      intro rest dest
      by_cases hm : matchesTarget e.1 = true
      · by_cases hf : fails e.1 (resolveName dest e.1) = true
        · simp [collectorRunE, hm, hf]
        · simp only [List.cons_append, collectorRunE, hm, if_true, hf, if_false]
          exact ih rest (dest ++ [(resolveName dest e.1, e.2)])
      · simp only [List.cons_append, collectorRunE, hm, if_false]
        exact ih rest dest

/-- Sanity: with no copy failures, the failure-aware Collector computes the
pure run and prints the summary. -/
theorem collectorRunE_noFail (src : List Entry) :
    ∀ dest : List Entry,
      collectorRunE (fun _ _ => false) src dest
        = Except.ok (collectorRun src dest, [collectorDoneMsg]) := by
  induction src with
  | nil => intro dest; rfl
  | cons e src ih =>
      intro dest
      by_cases hm : matchesTarget e.1 = true
      · simp [collectorRunE, hm, collectorRun_cons, collectorStep, ih]
      · simp [collectorRunE, hm, collectorRun_cons, collectorStep, ih]

/-! ### Claim C6 -/

/-- **C6** — Collector abort-on-error: there is no error handling around the
copy; if the files before `e` are processed without failure (reaching
destination contents `d1`), `e` matches, and its copy raises, then the whole
run aborts with the exception at that point: the result is the error state
`d1` whatever files follow `e`, no later file is copied, and no summary
line is ever produced (a successful result, the only carrier of the summary
line, is impossible). -/
theorem claim_C6_collector_abort (fails : FName → FName → Bool)
    (pre post : List Entry) (e : Entry) (dest0 d1 : List Entry) (log1 : List (List Char))
    (hpre : collectorRunE fails pre dest0 = Except.ok (d1, log1))
    (hm : matchesTarget e.1 = true)
    (hf : fails e.1 (resolveName d1 e.1) = true) :
    collectorRunE fails (pre ++ e :: post) dest0 = Except.error d1
      ∧ ∀ (dfin : List Entry) (logfin : List (List Char)),
          collectorRunE fails (pre ++ e :: post) dest0 ≠ Except.ok (dfin, logfin) := by
  have hsplit := collectorRunE_append fails pre (e :: post) dest0
  rw [hpre] at hsplit
  have hstep : collectorRunE fails (e :: post) d1 = Except.error d1 := by
    simp [collectorRunE, hm, hf]
  have habort : collectorRunE fails (pre ++ e :: post) dest0 = Except.error d1 :=
    hsplit.trans hstep
  refine ⟨habort, ?_⟩
  intro dfin logfin hcon
  rw [habort] at hcon
  cases hcon

/-- Witness for C6: every copy fails; collecting `a.cnf` followed by `b.cnf`
into an empty folder aborts at `a.cnf` with nothing copied. -/
theorem claim_C6_collector_abort_witness :
    collectorRunE (fun _ _ => true) ([] ++ ("a.cnf".toList, [1]) :: [("b.cnf".toList, [2])]) []
        = Except.error []
      ∧ collectorRunE (fun _ _ => true)
            ([] ++ ("a.cnf".toList, [1]) :: [("b.cnf".toList, [2])]) []
          ≠ Except.ok ([("a.cnf".toList, [1])], [collectorDoneMsg]) :=
  ⟨(claim_C6_collector_abort (fun _ _ => true) [] [("b.cnf".toList, [2])]
      ("a.cnf".toList, [1]) [] [] [collectorDoneMsg] rfl (by decide) rfl).1,
    (claim_C6_collector_abort (fun _ _ => true) [] [("b.cnf".toList, [2])]
        ("a.cnf".toList, [1]) [] [] [collectorDoneMsg] rfl (by decide) rfl).2
      [("a.cnf".toList, [1])] [collectorDoneMsg]⟩

/-! ### Claim C7 -/

theorem collectorRun_pre (src : List Entry) :
    ∀ dest : List Entry, dest <+: collectorRun src dest := by
  induction src with
  | nil => intro dest; exact List.prefix_refl _
  | cons e src ih =>
      intro dest
      exact (collectorStep_pre dest e).trans (ih (collectorStep dest e))

theorem collectorRun_new_from_src (src : List Entry) :
    ∀ dest : List Entry, ∀ e ∈ (collectorRun src dest).drop dest.length,
      ∃ s ∈ src, matchesTarget s.1 = true ∧ e.2 = s.2 := by
  induction src with
  | nil =>
      intro dest e he
      rw [collectorRun, List.foldl_nil, List.drop_length] at he
      cases he
  | cons s src ih =>
      intro dest e he
      rw [collectorRun_cons] at he
      by_cases hm : matchesTarget s.1 = true
      · have hstep : collectorStep dest s = dest ++ [(resolveName dest s.1, s.2)] := by
          rw [collectorStep, if_pos hm]
        obtain ⟨t, ht⟩ := collectorRun_pre src (collectorStep dest s)
        rw [← ht, hstep, List.append_assoc, List.drop_left] at he
        rcases List.mem_cons.mp (by simpa using he) with hex | het
        · exact ⟨s, List.mem_cons_self s src, hm, by rw [hex]⟩
        · have he' : e ∈ (collectorRun src (collectorStep dest s)).drop
              (collectorStep dest s).length := by
            rw [← ht, hstep]
            simpa [List.drop_left] using het
          obtain ⟨s', hs', hm', hc'⟩ := ih (collectorStep dest s) e he'
          exact ⟨s', List.mem_cons_of_mem s hs', hm', hc'⟩
      · have hstep : collectorStep dest s = dest := by
          rw [collectorStep, if_neg hm]
        rw [hstep] at he
        obtain ⟨s', hs', hm', hc'⟩ := ih dest e he
        exact ⟨s', List.mem_cons_of_mem s hs', hm', hc'⟩

/-- **C7** — frame property of both tools: a Collector run only appends to
the destination folder (the initial contents survive verbatim as a prefix,
so nothing is modified or deleted), every appended file carries the bytes of
some matching source file (files are created only by copy), and an Extractor
run never deletes a destination file (a name bound before the run is still
bound after it). Source files are immutable by construction in both
embeddings: a run reads the source listing and returns only new destination
contents. -/
theorem claim_C7_frame (src : List Entry) (dest0 : List Entry) (dec : DecOracle)
    (esrc : List Entry) (d0 : DestMap) :
    dest0 <+: collectorRun src dest0
      ∧ (∀ e ∈ (collectorRun src dest0).drop dest0.length,
          ∃ s ∈ src, matchesTarget s.1 = true ∧ e.2 = s.2)
      ∧ (∀ (n : FName) (v : Content), d0 n = some v →
          ∃ v' : Content, (extractorRun dec esrc d0).dest n = some v') := by
  refine ⟨collectorRun_pre src dest0, collectorRun_new_from_src src dest0, ?_⟩
  intro n v hv
  have L := extractorRun_lookup dec esrc d0 n
  cases hL : lastVal dec esrc n with
  | some v' =>
      simp only [hL] at L
      exact ⟨v', L⟩
  | none =>
      simp only [hL] at L
      exact ⟨v, L.trans hv⟩

/-- Witness for C7: a concrete Collector run and a concrete Extractor run
over a destination already holding `keep.txt`. -/
theorem claim_C7_frame_witness :
    (fun n : FName => if n = "keep.txt".toList then some ([3] : Content) else none)
          "keep.txt".toList = some [3]
      ∧ ([("old.cnf".toList, [7])] <+:
            collectorRun [("a.cnf".toList, [1])] [("old.cnf".toList, [7])])
      ∧ (∃ v' : Content,
            (extractorRun decSample srcSample
                (fun n => if n = "keep.txt".toList then some ([3] : Content) else none)).dest
              "keep.txt".toList = some v') :=
  ⟨by decide,
    (claim_C7_frame [("a.cnf".toList, [1])] [("old.cnf".toList, [7])] decSample srcSample
      (fun n => if n = "keep.txt".toList then some ([3] : Content) else none)).1,
    (claim_C7_frame [("a.cnf".toList, [1])] [("old.cnf".toList, [7])] decSample srcSample
        (fun n => if n = "keep.txt".toList then some ([3] : Content) else none)).2.2
      "keep.txt".toList [3] (by decide)⟩

/-! ### Characters: lowercasing facts -/

theorem char_toNat_ofNat_valid {n : Nat} (h : Char.isValidCharNat n) :
    (Char.ofNat n).toNat = n := by
  rw [Char.ofNat, dif_pos h]
  simp [Char.ofNatAux, Char.toNat, UInt32.ofNat', UInt32.toNat, BitVec.toNat_ofNatLt]

theorem toLower_eq_dot {c : Char} (h : c.toLower = '.') : c = '.' := by
  unfold Char.toLower at h
  by_cases hr : c.toNat ≥ 65 ∧ c.toNat ≤ 90
  · rw [if_pos hr] at h
    have h2 := congrArg Char.toNat h
    rw [char_toNat_ofNat_valid (Or.inl (by omega))] at h2
    have h3 : ('.' : Char).toNat = 46 := by decide
    omega
  · rwa [if_neg hr] at h

theorem digitChar_toLower_ne_z {d : Nat} (h : d < 10) :
    (Nat.digitChar d).toLower ≠ 'z' := by
  interval_cases d <;> decide

/-! ### `splitext`: splitting at the last dot -/

theorem splitAtLastDot_of_nodot : ∀ {l : List Char}, '.' ∉ l → splitAtLastDot l = none := by
  intro l
  induction l with
  | nil => intro _; rfl
  | cons c cs ih =>
      intro h
      have hcs : splitAtLastDot cs = none := ih (fun hm => h (List.mem_cons_of_mem c hm))
      have hc : ¬c = '.' := fun hc => h (by rw [hc]; exact List.mem_cons_self _ _)
      simp only [splitAtLastDot, hcs, if_neg hc]

theorem splitAtLastDot_last (ys : List Char) (h : '.' ∉ ys) :
    ∀ xs : List Char, splitAtLastDot (xs ++ '.' :: ys) = some (xs, '.' :: ys) := by
  intro xs
  induction xs with
  | nil =>
      rw [List.nil_append]
      simp [splitAtLastDot, splitAtLastDot_of_nodot h]
  | cons x xs ih =>
      rw [List.cons_append]
      simp only [splitAtLastDot, ih]

theorem splitAtLastDot_eq : ∀ {p b e : List Char},
    splitAtLastDot p = some (b, e) → p = b ++ e ∧ e ≠ [] := by
  intro p
  induction p with
  | nil => intro b e h; cases h
  | cons c cs ih =>
      intro b e h
      rw [splitAtLastDot] at h
      cases hs : splitAtLastDot cs with
      | some be =>
          rw [hs] at h
          injection h with h'
          obtain ⟨hcs, hne⟩ := ih hs
          cases h'
          exact ⟨by rw [List.cons_append, ← hcs], hne⟩
      | none =>
          rw [hs] at h
          by_cases hc : c = '.'
          · rw [if_pos hc] at h
            injection h with h'
            cases h'
            exact ⟨rfl, by simp⟩
          · rw [if_neg hc] at h
            cases h

/-! ### Decomposing a name from a case-insensitive suffix of it -/

theorem suffix_decomp {f sfx : List Char} (h : sfx <:+ pyLower f) :
    ∃ g l : List Char, f = g ++ l ∧ pyLower l = sfx := by
  obtain ⟨h', hh⟩ := h
  have hlen : h'.length + sfx.length = f.length := by
    have hl := congrArg List.length hh
    simpa [pyLower] using hl
  refine ⟨f.take (f.length - sfx.length), f.drop (f.length - sfx.length),
    (List.take_append_drop _ f).symm, ?_⟩
  rw [pyLower, List.map_drop, show f.length - sfx.length = h'.length from by omega,
    show List.map Char.toLower f = h' ++ sfx from hh.symm, List.drop_left]

theorem seven_chars : ∀ {l : List Char},
    List.map Char.toLower l = ['.', 'c', 'n', 'f', '.', 'x', 'z'] →
    ∃ d2 d3 d4 d6 d7 : Char, l = ['.', d2, d3, d4, '.', d6, d7]
      ∧ d2.toLower = 'c' ∧ d6.toLower = 'x' ∧ d7.toLower = 'z' := by
  intro l h
  rcases l with _ | ⟨d1, _ | ⟨d2, _ | ⟨d3, _ | ⟨d4, _ | ⟨d5, _ | ⟨d6, _ | ⟨d7, _ | ⟨d8, t⟩⟩⟩⟩⟩⟩⟩⟩ <;>
    simp at h
  obtain ⟨h1, h2, h3, h4, h5, h6, h7⟩ := h
  exact ⟨d2, d3, d4, d6, d7,
    by rw [toLower_eq_dot h1, toLower_eq_dot h5], h2, h6, h7⟩

theorem four_chars : ∀ {l : List Char},
    List.map Char.toLower l = ['.', 'c', 'n', 'f'] →
    ∃ e2 e3 e4 : Char, l = ['.', e2, e3, e4]
      ∧ e2.toLower = 'c' ∧ e3.toLower = 'n' ∧ e4.toLower = 'f' := by
  intro l h
  rcases l with _ | ⟨e1, _ | ⟨e2, _ | ⟨e3, _ | ⟨e4, _ | ⟨e5, t⟩⟩⟩⟩⟩ <;>
    simp at h
  obtain ⟨h1, h2, h3, h4⟩ := h
  exact ⟨e2, e3, e4, by rw [toLower_eq_dot h1], h2, h3, h4⟩

theorem ne_dot_of_toLower {c : Char} {x : Char} (h : c.toLower = x) (hx : x ≠ '.') :
    c ≠ '.' := by
  intro hc
  rw [hc] at h
  exact hx (by rw [← h]; rfl)

/-- `splitext` on a name that case-insensitively ends in `.cnf.xz` splits
exactly before the final `.xz`/`.XZ`, whose last character lowercases
to `z`. -/
theorem xz_splitext {f : FName} (hxz : xzTarget f = true) :
    ∃ (g : FName) (d2 d3 d4 d6 d7 : Char),
      f = g ++ ['.', d2, d3, d4, '.', d6, d7]
        ∧ d2.toLower = 'c' ∧ d6.toLower = 'x' ∧ d7.toLower = 'z'
        ∧ splitext f = (g ++ ['.', d2, d3, d4], ['.', d6, d7]) := by
  have hsuf : ".cnf.xz".toList <:+ pyLower f := by
    simpa [xzTarget, pyEndsWith] using hxz
  obtain ⟨g, l, hf, hl⟩ := suffix_decomp hsuf
  obtain ⟨d2, d3, d4, d6, d7, hl7, hc, hx6, hz⟩ := seven_chars (l := l) hl
  subst hl7
  subst hf
  have h6 : d6 ≠ '.' := ne_dot_of_toLower hx6 (by decide)
  have h7 : d7 ≠ '.' := ne_dot_of_toLower hz (by decide)
  have hnod : '.' ∉ [d6, d7] := by
    intro hm
    rcases List.mem_cons.mp hm with hm1 | hm2
    · exact h6 hm1.symm
    · rcases List.mem_cons.mp hm2 with hm3 | hm4
      · exact h7 hm3.symm
      · cases hm4
  have hsplit : splitAtLastDot (g ++ ['.', d2, d3, d4, '.', d6, d7])
      = some (g ++ ['.', d2, d3, d4], '.' :: [d6, d7]) := by
    have hla := splitAtLastDot_last [d6, d7] hnod (g ++ ['.', d2, d3, d4])
    simpa [List.append_assoc] using hla
  have hd2 : d2 ≠ '.' := ne_dot_of_toLower hc (by decide)
  refine ⟨g, d2, d3, d4, d6, d7, rfl, hc, hx6, hz, ?_⟩
  have hfalse : ((g ++ ['.', d2, d3, d4]).all fun c => c = '.') = false := by
    simp [List.all_append, hd2]
  rw [splitext, hsplit]
  simp [hfalse]

/-- `splitext` on a name that case-insensitively ends in `.cnf` either finds
no extension (the base is all dots) or splits off an extension of exactly
four characters whose last lowercases to `f`. -/
theorem cnf_splitext {f : FName} (h : pyEndsWith (pyLower f) ".cnf".toList = true) :
    splitext f = (f, [])
      ∨ ∃ (b : FName) (e2 e3 e4 : Char),
          splitext f = (b, ['.', e2, e3, e4]) ∧ e4.toLower = 'f' := by
  have hsuf : ".cnf".toList <:+ pyLower f := by
    simpa [pyEndsWith] using h
  obtain ⟨g, l, hf, hl⟩ := suffix_decomp hsuf
  obtain ⟨e2, e3, e4, hl4, hc, hn, hlf⟩ := four_chars (l := l) hl
  subst hl4
  subst hf
  have hnod : '.' ∉ [e2, e3, e4] := by
    intro hm
    rcases List.mem_cons.mp hm with hm1 | hm2
    · exact ne_dot_of_toLower hc (by decide) hm1.symm
    · rcases List.mem_cons.mp hm2 with hm3 | hm4
      · exact ne_dot_of_toLower hn (by decide) hm3.symm
      · rcases List.mem_cons.mp hm4 with hm5 | hm6
        · exact ne_dot_of_toLower hlf (by decide) hm5.symm
        · cases hm6
  have hsplit : splitAtLastDot (g ++ ['.', e2, e3, e4])
      = some (g, '.' :: [e2, e3, e4]) :=
    splitAtLastDot_last [e2, e3, e4] hnod g
  by_cases hall : (g.all fun c => c = '.') = true
  · left
    rw [splitext, hsplit]
    simp [hall]
  · right
    refine ⟨g, e2, e3, e4, ?_, hlf⟩
    rw [splitext, hsplit]
    simp [hall]

/-! ### The last character of a candidate name -/

theorem pyStr_getLast (k : Nat) : (pyStr k).getLast? = some (Nat.digitChar (k % 10)) := by
  by_cases h : k = 0
  · subst h; rfl
  · obtain ⟨fuel, hf⟩ : ∃ fuel, k = fuel + 1 := ⟨k - 1, by omega⟩
    rw [pyStr, if_neg h]
    conv_lhs => rw [hf, pyStrAux, if_neg (by omega : ¬fuel + 1 = 0)]
    rw [List.getLast?_concat, hf]

theorem pyStr_ne_nil (k : Nat) : pyStr k ≠ [] := by
  intro hnil
  have hlast := pyStr_getLast k
  rw [hnil] at hlast
  cases hlast

theorem candName_getLast {ext : FName} (base : FName) (k : Nat) (hext : ext ≠ []) :
    (candName base ext k).getLast? = ext.getLast? := by
  rw [candName, List.getLast?_append_of_ne_nil _ (by simp)]
  show (['_'] ++ (pyStr k ++ ext)).getLast? = ext.getLast?
  rw [List.getLast?_append_of_ne_nil _ (by simp [hext]),
    List.getLast?_append_of_ne_nil _ hext]

theorem candName_nil_getLast (base : FName) (k : Nat) :
    (candName base [] k).getLast? = some (Nat.digitChar (k % 10)) := by
  rw [candName, List.getLast?_append_of_ne_nil _ (by simp)]
  show (['_'] ++ (pyStr k ++ [])).getLast? = _
  rw [List.append_nil, List.getLast?_append_of_ne_nil _ (pyStr_ne_nil k)]
  exact pyStr_getLast k

/-! ### Claim C9 -/

/-- **C9** — the collision rename splits on the last extension only: for a
name `name.cnf.xz`, `os.path.splitext` yields base `name.cnf` and extension
`.xz`, so the `_N` of a collision rename lands between `.cnf` and `.xz`
(`name.cnf_N.xz`, not `name_N.cnf.xz`); consequently a renamed `.cnf.xz`
file — whose name ends in a character lowercasing to `z` — can never
coincide with a renamed `.cnf` file — whose name ends in a character
lowercasing to `f`, or in a digit when its base is all dots. -/
theorem claim_C9_rename_splits_last_ext :
    (∀ (name : FName) (n : Nat),
        splitext (name ++ ".cnf.xz".toList) = (name ++ ".cnf".toList, ".xz".toList)
          ∧ candName (name ++ ".cnf".toList) ".xz".toList n
              = name ++ ".cnf_".toList ++ pyStr n ++ ".xz".toList)
      ∧ (∀ (f1 f2 : FName) (n m : Nat), xzTarget f1 = true →
            pyEndsWith (pyLower f2) ".cnf".toList = true →
            candName (splitext f1).1 (splitext f1).2 n
              ≠ candName (splitext f2).1 (splitext f2).2 m) := by
  constructor
  · intro name n
    have hxz7 : ".cnf.xz".toList = ['.', 'c', 'n', 'f', '.', 'x', 'z'] := rfl
    have hcnf4 : ".cnf".toList = ['.', 'c', 'n', 'f'] := rfl
    have hxz2 : ".xz".toList = ['.', 'x', 'z'] := rfl
    have hu5 : ".cnf_".toList = ['.', 'c', 'n', 'f', '_'] := rfl
    constructor
    · have hsplit := splitAtLastDot_last ['x', 'z'] (by decide) (name ++ ['.', 'c', 'n', 'f'])
      have hsplit' : splitAtLastDot (name ++ ['.', 'c', 'n', 'f', '.', 'x', 'z'])
          = some (name ++ ['.', 'c', 'n', 'f'], ['.', 'x', 'z']) := by
        simpa [List.append_assoc] using hsplit
      have hfalse : ((name ++ ['.', 'c', 'n', 'f']).all fun c => c = '.') = false := by
        simp [List.all_append]
      rw [hxz7, hcnf4, hxz2, splitext, hsplit']
      simp [hfalse]
    · rw [hcnf4, hxz2, hu5, candName]
      simp [List.append_assoc]
  · intro f1 f2 n m h1 h2 heq
    obtain ⟨g, d2, d3, d4, d6, d7, hf1, hc, hx6, hz, hsp1⟩ := xz_splitext h1
    have hL1 : (candName (splitext f1).1 (splitext f1).2 n).getLast? = some d7 := by
      rw [hsp1]
      rw [candName_getLast _ _ (by simp)]
      rfl
    rcases cnf_splitext h2 with hsp2 | ⟨b, e2, e3, e4, hsp2, hlf⟩
    · have hL2 : (candName (splitext f2).1 (splitext f2).2 m).getLast?
          = some (Nat.digitChar (m % 10)) := by
        rw [hsp2]
        exact candName_nil_getLast f2 m
      rw [heq, hL2] at hL1
      injection hL1 with hd
      have hne := digitChar_toLower_ne_z (Nat.mod_lt m (by norm_num))
      rw [hd] at hne
      exact hne hz
    · have hL2 : (candName (splitext f2).1 (splitext f2).2 m).getLast? = some e4 := by
        rw [hsp2]
        rw [candName_getLast _ _ (by simp)]
        rfl
      rw [heq, hL2] at hL1
      injection hL1 with hd
      rw [hd] at hlf
      exact absurd (hz.symm.trans hlf) (by decide)

/-- Witness for C9: `a.cnf.xz` splits into `a.cnf` + `.xz`, and its renamed
candidates can never equal renamed candidates of `b.cnf`. -/
theorem claim_C9_rename_splits_last_ext_witness :
    xzTarget "a.cnf.xz".toList = true
      ∧ pyEndsWith (pyLower "b.cnf".toList) ".cnf".toList = true
      ∧ splitext ("a".toList ++ ".cnf.xz".toList)
          = ("a".toList ++ ".cnf".toList, ".xz".toList)
      ∧ candName (splitext "a.cnf.xz".toList).1 (splitext "a.cnf.xz".toList).2 1
          ≠ candName (splitext "b.cnf".toList).1 (splitext "b.cnf".toList).2 1 :=
  ⟨by decide, by decide,
    (claim_C9_rename_splits_last_ext.1 "a".toList 1).1,
    claim_C9_rename_splits_last_ext.2 "a.cnf.xz".toList "b.cnf".toList 1 1
      (by decide) (by decide)⟩

/-! ### Claim C10 -/

/-- **C10** — the Extractor preserves source-name casing: the suffix match
is case-insensitive, but the output name is the source name minus exactly
its last three characters, hence a literal prefix of the source name
(original casing untouched) that still case-insensitively ends in `.cnf`;
concretely, extracting `A.CNF.XZ` produces the destination file `A.CNF`. -/
theorem claim_C10_preserves_casing :
    (∀ f : FName, xzTarget f = true →
        stripXz f <+: f
          ∧ f.length = (stripXz f).length + 3
          ∧ pyEndsWith (pyLower (stripXz f)) ".cnf".toList = true)
      ∧ (extractorRun (fun c => Except.ok c) [("A.CNF.XZ".toList, [1, 2])]
            emptyDest).dest "A.CNF".toList = some [1, 2] := by
  constructor
  · intro f hxz
    have hsuf : ".cnf.xz".toList <:+ pyLower f := by
      simpa [xzTarget, pyEndsWith] using hxz
    obtain ⟨h', hh⟩ := hsuf
    have hlen : h'.length + 7 = f.length := by
      have hl := congrArg List.length hh
      simpa [pyLower] using hl
    refine ⟨⟨f.drop (f.length - 3), List.take_append_drop _ f⟩, ?_, ?_⟩
    · rw [stripXz, List.length_take]
      omega
    · have htake4 : List.take 4 ".cnf.xz".toList = ".cnf".toList := by decide
      have hstrip : pyLower (stripXz f) = h' ++ ".cnf".toList := by
        rw [stripXz, pyLower, List.map_take,
          show f.length - 3 = h'.length + 4 from by omega,
          show List.map Char.toLower f = h' ++ ".cnf.xz".toList from hh.symm,
          List.take_append_eq_append_take,
          List.take_of_length_le (by omega),
          show h'.length + 4 - h'.length = 4 from by omega, htake4]
      rw [hstrip]
      simp only [pyEndsWith, decide_eq_true_eq]
      exact List.suffix_append h' _
  · decide

/-- Witness for C10: the general part applied to the concrete source name
`A.CNF.XZ`, whose stripped output name is literally `A.CNF`. -/
theorem claim_C10_preserves_casing_witness :
    xzTarget "A.CNF.XZ".toList = true
      ∧ stripXz "A.CNF.XZ".toList = "A.CNF".toList
      ∧ (stripXz "A.CNF.XZ".toList <+: "A.CNF.XZ".toList
          ∧ ("A.CNF.XZ".toList : FName).length = (stripXz "A.CNF.XZ".toList).length + 3
          ∧ pyEndsWith (pyLower (stripXz "A.CNF.XZ".toList)) ".cnf".toList = true) :=
  ⟨by decide, by decide,
    claim_C10_preserves_casing.1 "A.CNF.XZ".toList (by decide)⟩

end CnfTools
